import Mathlib

/-!
Verification of the event-sourced ledger core of `ethereum-account-state`.

The definitions below are a shallow embedding, translated from the
TypeScript source:

* `Address`, `Balance` semantics from `src/domain/value-objects/Balance.ts`
  (file holds the `Balance` class followed by the `Address` class).
  `Balance` wraps a non-negative arbitrary-precision integer, so it is
  modelled as `Nat`; `Balance.subtract` throws on underflow, which is
  modelled by the explicit underflow checks at its two call sites.
* `Token` from `src/domain/entities/Token.ts` (the revision cited by the
  claims, i.e. the first document in that file: its `mint`/`transfer`/`burn`
  carry no `amount == 0` checks).  A JavaScript `Map<string, Balance>` is
  modelled as an insertion-ordered association list: `set` updates an
  existing key in place, otherwise appends; `values()` iterates in
  insertion order.  Operations that `throw` are modelled as returning the
  token state reached at the point of the throw together with
  `some errorMessage`; mutations performed before a throw persist, since
  the TypeScript `Token` object is mutated in place.
* The reconstruction pipeline from
  `src/application/services/StateQueryService.ts`
  (`reconstructStateFromEvents`), in the revision pinned by the unit tests
  in `tests/unit/state-query.test.ts`: group parsed logs by transaction
  hash, sort transactions by the minimum `(blockNumber, transactionIndex)`
  of their logs, sort each transaction's logs by
  `(blockNumber, transactionIndex, logIndex)`, compute a per-transaction
  `hasTransferBurn` flag in a first pass, then apply events in order with
  a per-event catch that records a diagnostic and continues.  JavaScript
  `Array.prototype.sort` is stable, which `List.insertionSort` with a
  non-strict comparison reproduces.  `console.warn` diagnostics emitted by
  the second (apply) pass are modelled as a returned list of messages;
  warnings of the parse/grouping passes carry no state and are not
  collected.
-/

namespace EthState

/-- Ethereum address value object (`Address` class): a validated hex string.
`equals` compares lowercased values; `isZero` is `equals` with the zero
address. -/
structure Address where
  value : String
deriving DecidableEq

/-- The null/zero address string used by `Address.zero()`. -/
def zeroAddressString : String := "0x0000000000000000000000000000000000000000"

/-- `Address.zero()`. -/
def Address.zero : Address := ⟨zeroAddressString⟩

/-- One character of the `[a-fA-F0-9]` class from
`isValidEthereumAddress`. -/
def isHexDigit (c : Char) : Bool :=
  (decide (('0' ≤ c) ∧ (c ≤ '9'))) ||
  (decide (('a' ≤ c) ∧ (c ≤ 'f'))) ||
  (decide (('A' ≤ c) ∧ (c ≤ 'F')))

/-- `isValidEthereumAddress`: the regex `^0x[a-fA-F0-9]{40}$`. -/
def isValidEthereumAddress (s : String) : Bool :=
  match s.data with
  | '0' :: 'x' :: rest => (rest.length == 40) && rest.all isHexDigit
  | _ => false

/-- `Address.from(value)`: the private constructor throws on an invalid
string, modelled as `none`. -/
def Address.fromString (s : String) : Option Address :=
  if isValidEthereumAddress s then some ⟨s⟩ else none

/-- `value.toLowerCase()` on ASCII strings, written as a direct map over
the character list (the library `String.map` is defined by well-founded
recursion and is observationally the same here). -/
def lowerString (s : String) : String :=
  String.mk (s.data.map Char.toLower)

/-- `Address.equals(other)`: case-insensitive comparison of the canonical
hex form. -/
def Address.equalsAddr (a b : Address) : Bool :=
  lowerString a.value == lowerString b.value

/-- `Address.isZero()`. -/
def Address.isZero (a : Address) : Bool :=
  Address.equalsAddr a Address.zero

/-- `Map.get` on a `Map<string, Balance>`: first (unique) matching key. -/
def mapGet : List (String × Nat) → String → Option Nat
  | [], _ => none
  | (k, v) :: rest, key => if k = key then some v else mapGet rest key

/-- `Map.set` on a `Map<string, Balance>`: update an existing key in place,
else append at the end (JavaScript insertion order). -/
def mapSet : List (String × Nat) → String → Nat → List (String × Nat)
  | [], key, val => [(key, val)]
  | (k, v) :: rest, key, val =>
    if k = key then (key, val) :: rest else (k, v) :: mapSet rest key val

/-- The token aggregate (`Token` class): contract address, total supply and
the balances map. -/
structure Token where
  contractAddress : Address
  totalSupply : Nat
  accounts : List (String × Nat)
deriving DecidableEq

/-- `Token.create(contractAddress)`: empty balances, zero supply. -/
def Token.create (contractAddress : Address) : Token :=
  ⟨contractAddress, 0, []⟩

/-- `Token.getBalance(address)`: `accounts.get(address.getValue()) ||
Balance.zero()`. -/
def Token.getBalance (t : Token) (a : Address) : Nat :=
  (mapGet t.accounts a.value).getD 0

/-- `Token.mint(to, amount)`.  Throws only before any mutation.  Note the
source revision cited by the claims has no `amount == 0` check. -/
def Token.mint (t : Token) (toA : Address) (amount : Nat) : Token × Option String :=
  if toA.isZero then (t, some "Cannot mint to zero address")
  else
    let currentBalance := t.getBalance toA
    ({ t with
        accounts := mapSet t.accounts toA.value (currentBalance + amount),
        totalSupply := t.totalSupply + amount }, none)

/-- `Token.transfer(from, to, amount)`.  Faithful to the source: the
recipient balance `toBalance` is read before either `set`, so when
`from = to` the second `set` overwrites the debit.  Throws only before any
mutation.  No `amount == 0` check in the cited revision. -/
def Token.transfer (t : Token) (fromA toA : Address) (amount : Nat) :
    Token × Option String :=
  if toA.isZero then (t, some "Cannot transfer to zero address")
  else
    let fromBalance := t.getBalance fromA
    if fromBalance < amount then (t, some "Insufficient balance for transfer")
    else
      let toBalance := t.getBalance toA
      let accounts1 := mapSet t.accounts fromA.value (fromBalance - amount)
      let accounts2 := mapSet accounts1 toA.value (toBalance + amount)
      ({ t with accounts := accounts2 }, none)

/-- `Token.burn(from, amount)`.  The balances `set` happens before
`totalSupply.subtract(amount)`; if that subtraction underflows,
`Balance.subtract` throws and the already-performed balance mutation
persists (the object was mutated in place). -/
def Token.burn (t : Token) (fromA : Address) (amount : Nat) : Token × Option String :=
  let fromBalance := t.getBalance fromA
  if fromBalance < amount then (t, some "Insufficient balance for burn")
  else
    let t1 := { t with accounts := mapSet t.accounts fromA.value (fromBalance - amount) }
    if t1.totalSupply < amount then (t1, some "Insufficient balance")
    else ({ t1 with totalSupply := t1.totalSupply - amount }, none)

/-- `Token.verifyInvariant()`: sum of stored balances equals the total
supply. -/
def Token.verifyInvariant (t : Token) : Bool :=
  (t.accounts.foldl (fun sum kv => sum + kv.2) 0) == t.totalSupply

/-- Concrete contract address used in closed evaluations. -/
def contractAddr : Address := ⟨"0x1234567890123456789012345678901234567890"⟩

/-- Concrete account used in closed evaluations. -/
def alice : Address := ⟨"0x1111111111111111111111111111111111111111"⟩

/-- Second concrete account used in closed evaluations. -/
def bob : Address := ⟨"0x2222222222222222222222222222222222222222"⟩

/-- Claim C1.  The claim asserts that every sequence of precondition-passing
mint/transfer/burn operations from the empty state keeps
`verifyInvariant()` true, the quantifier explicitly including transfers
with `from = to`.  This evaluation exhibits the failure: from empty,
`mint(alice, 100)` then `transfer(alice, alice, 50)` both succeed (all
stated preconditions hold: amount nonzero, recipient non-null, balance 100
at least 50), yet afterwards `verifyInvariant()` returns `false` — the
cached recipient balance overwrites the debit, so the stored balance
becomes 150 while `totalSupply` stays 100. -/
theorem c1_self_transfer_breaks_invariant :
    (Token.mint (Token.create contractAddr) alice 100).2 = none ∧
    (Token.transfer (Token.mint (Token.create contractAddr) alice 100).1
        alice alice 50).2 = none ∧
    Token.verifyInvariant
      (Token.transfer (Token.mint (Token.create contractAddr) alice 100).1
        alice alice 50).1 = false := by
  refine ⟨rfl, rfl, rfl⟩

/-- Claim C2.  The claim asserts that a precondition-passing
`transfer(from, to, amount)` moves exactly `amount`, and in particular that
a self-transfer has zero net effect on the account.  This evaluation
exhibits the failure: with balance 100, `transfer(alice, alice, 50)`
succeeds but leaves alice with 150, a net gain of the transferred amount
instead of zero. -/
theorem c2_self_transfer_gains_amount :
    (Token.transfer (Token.mint (Token.create contractAddr) alice 100).1
        alice alice 50).2 = none ∧
    Token.getBalance
      (Token.transfer (Token.mint (Token.create contractAddr) alice 100).1
        alice alice 50).1 alice = 150 := by
  refine ⟨rfl, rfl⟩

/-- Claim C5.  The claim asserts that `mint`, `transfer` and `burn` reject
`amount = 0` with a `ZeroAmount` error.  The cited `Token` revision has no
such check: all three zero-amount operations succeed (as no-ops on
balances), shown here from a state where alice holds 100. -/
theorem c5_zero_amount_accepted :
    (Token.mint (Token.mint (Token.create contractAddr) alice 100).1 alice 0).2
      = none ∧
    (Token.transfer (Token.mint (Token.create contractAddr) alice 100).1
        alice bob 0).2 = none ∧
    (Token.burn (Token.mint (Token.create contractAddr) alice 100).1 alice 0).2
      = none := by
  refine ⟨rfl, rfl, rfl⟩

/-- Claim C6.  The claim asserts that a failing `transfer` or `burn` leaves
the state unchanged, for every state reachable by successful operations.
This evaluation exhibits the failure: the state reached by `mint(alice,
100); transfer(alice, alice, 100)` (both successful) has stored balance
200 and `totalSupply` 100; `burn(alice, 200)` then passes the balance
check, writes alice's balance to 0, and only afterwards throws from
`Balance.subtract` when deducting 200 from the supply of 100 — so a failed
burn has mutated the balance from 200 to 0. -/
theorem c6_failed_burn_mutates_state :
    (Token.mint (Token.create contractAddr) alice 100).2 = none ∧
    (Token.transfer (Token.mint (Token.create contractAddr) alice 100).1
        alice alice 100).2 = none ∧
    Token.getBalance
      (Token.transfer (Token.mint (Token.create contractAddr) alice 100).1
        alice alice 100).1 alice = 200 ∧
    (Token.burn
      (Token.transfer (Token.mint (Token.create contractAddr) alice 100).1
        alice alice 100).1 alice 200).2.isSome = true ∧
    Token.getBalance
      (Token.burn
        (Token.transfer (Token.mint (Token.create contractAddr) alice 100).1
          alice alice 100).1 alice 200).1 alice = 0 := by
  refine ⟨rfl, rfl, rfl, rfl, rfl⟩

/-- Mixed-case spelling of an account address, for the case-sensitivity
evaluations. -/
def carolUpper : Address := ⟨"0xAB00000000000000000000000000000000000001"⟩

/-- Lower-case spelling of the same account address. -/
def carolLower : Address := ⟨"0xab00000000000000000000000000000000000001"⟩

/-- Claim C9, counterexample.  The two spellings are equal under the
case-insensitive `Address.equals`, yet after minting 100 to the mixed-case
spelling, querying the balance with the lower-case spelling returns 0: the
balances map is keyed by the exact, case-sensitive string. -/
theorem c9_case_sensitivity_counterexample :
    Address.equalsAddr carolUpper carolLower = true ∧
    Token.getBalance (Token.mint (Token.create contractAddr) carolUpper 100).1
      carolUpper = 100 ∧
    Token.getBalance (Token.mint (Token.create contractAddr) carolUpper 100).1
      carolLower = 0 := by
  refine ⟨rfl, rfl, rfl⟩

/-- `mapGet` after `mapSet` at the written key. -/
theorem mapGet_mapSet_self (l : List (String × Nat)) (k : String) (v : Nat) :
    mapGet (mapSet l k v) k = some v := by
  induction l with
  | nil => simp [mapSet, mapGet]
  | cons kv rest ih =>
    obtain ⟨k0, v0⟩ := kv
    by_cases h : k0 = k
    · simp [mapSet, mapGet, h]
    · simp [mapSet, mapGet, h, ih]

/-- `mapGet` after `mapSet` at a different key. -/
theorem mapGet_mapSet_other (l : List (String × Nat)) (k k' : String) (v : Nat)
    (h : k' ≠ k) : mapGet (mapSet l k v) k' = mapGet l k' := by
  induction l with
  | nil =>
    have hk : k ≠ k' := fun e => h e.symm
    simp [mapSet, mapGet, hk]
  | cons kv rest ih =>
    obtain ⟨k0, v0⟩ := kv
    by_cases hk : k0 = k
    · subst hk
      have hk2 : k0 ≠ k' := fun e => h e.symm
      simp [mapSet, mapGet, hk2]
    · by_cases hk' : k0 = k'
      · subst hk'
        simp [mapSet, mapGet, hk, h]
      · simp [mapSet, mapGet, hk, hk', ih]

/-- Claim C9, amended.  Balance visibility is governed by the exact address
string, not by case-insensitive address equality: after a successful
`mint(a, n)`, querying with any address `b` carrying the identical string
sees the credited balance, while querying with any differently-spelled
string (including a different casing of the same account) reads the map at
that other key, unchanged by the mint. -/
theorem c9_balance_keyed_by_exact_string (t : Token) (a b : Address) (n : Nat)
    (h0 : a.isZero = false) :
    (b.value = a.value →
      Token.getBalance (Token.mint t a n).1 b = Token.getBalance t a + n) ∧
    (b.value ≠ a.value →
      Token.getBalance (Token.mint t a n).1 b = Token.getBalance t b) := by
  constructor
  · intro hb
    simp [Token.mint, h0, Token.getBalance, hb, mapGet_mapSet_self]
  · intro hb
    simp [Token.mint, h0, Token.getBalance, mapGet_mapSet_other _ _ _ _ hb]

/-- Witness for `c9_balance_keyed_by_exact_string` at a concrete input. -/
theorem c9_balance_keyed_by_exact_string_witness :
    Token.getBalance
      (Token.mint (Token.create contractAddr) carolUpper 5).1 carolUpper = 5 := by
  have h := (c9_balance_keyed_by_exact_string (Token.create contractAddr)
    carolUpper carolUpper 5 (by rfl)).1 rfl
  simp only [h]
  rfl

/-! ## Reconstruction pipeline (`StateQueryService.reconstructStateFromEvents`) -/

/-- A parsed log payload (`ethers.LogDescription` restricted to the three
events of the token interface): `Mint(to, amount)`,
`Transfer(from, to, amount)`, `Burn(from, amount)`.  Addresses are kept as
raw strings; `Address.from` is applied during replay exactly where the
source applies it.  Amounts are `uint256` values, hence `Nat`. -/
inductive EventData where
  | Mint : String → Nat → EventData
  | Transfer : String → String → Nat → EventData
  | Burn : String → Nat → EventData
deriving DecidableEq

/-- One raw record from `provider.getLogs`, after the parse attempt of the
first pass: `data = none` models a log that `parseLog` could not parse
(skipped, exactly as the `if (parsed)` guard and the surrounding catch do),
together with the ordering coordinates `blockNumber`, `transactionIndex`,
`log.index` and the grouping key `transactionHash`. -/
structure RawLog where
  data : Option EventData
  txHash : String
  blockNumber : Nat
  transactionIndex : Nat
  logIndex : Nat
deriving DecidableEq

/-- The `(blockNumber, transactionIndex)` coordinate of a log. -/
def pairKey (r : RawLog) : Nat × Nat := (r.blockNumber, r.transactionIndex)

/-- The `(blockNumber, transactionIndex, logIndex)` coordinate of a log. -/
def tripleKey (r : RawLog) : Nat × Nat × Nat :=
  (r.blockNumber, r.transactionIndex, r.logIndex)

/-- Strict lexicographic order on `(blockNumber, transactionIndex)`: the
update condition of the `reduce` computing a transaction's minimum
coordinate. -/
def pairLtB (a b : Nat × Nat) : Bool :=
  a.1 < b.1 || (a.1 == b.1 && a.2 < b.2)

/-- Non-strict lexicographic order on `(blockNumber, transactionIndex)`:
the sort comparator `aMin.blockNumber - bMin.blockNumber || aMin.transactionIndex -
bMin.transactionIndex` reports `a` not after `b` exactly when this holds. -/
def pairLe (a b : Nat × Nat) : Prop :=
  a.1 < b.1 ∨ (a.1 = b.1 ∧ a.2 ≤ b.2)

instance : DecidableRel pairLe := fun a b =>
  inferInstanceAs (Decidable (a.1 < b.1 ∨ (a.1 = b.1 ∧ a.2 ≤ b.2)))

/-- Non-strict lexicographic order on the full
`(blockNumber, transactionIndex, logIndex)` tuple: the within-transaction
sort comparator. -/
def tripleLe (a b : Nat × Nat × Nat) : Prop :=
  a.1 < b.1 ∨ (a.1 = b.1 ∧ pairLe a.2 b.2)

instance : DecidableRel tripleLe := fun a b =>
  inferInstanceAs (Decidable (a.1 < b.1 ∨ (a.1 = b.1 ∧ pairLe a.2 b.2)))

/-- Comparator used for `txLogs.sort` inside a transaction. -/
def logLe (r s : RawLog) : Prop := tripleLe (tripleKey r) (tripleKey s)

instance : DecidableRel logLe := fun r s =>
  inferInstanceAs (Decidable (tripleLe (tripleKey r) (tripleKey s)))

/-- The `reduce` computing a transaction's minimum
`(blockNumber, transactionIndex)`: starts from the first element and takes
any strictly lexicographically smaller coordinate. -/
def minKey (logs : List RawLog) : Nat × Nat :=
  match logs with
  | [] => (0, 0)
  | r :: rs =>
    rs.foldl (fun m s => if pairLtB (pairKey s) m then pairKey s else m) (pairKey r)

/-- Comparator used for `sortedTxEntries`: transactions ordered by the
minimum coordinate of their logs. -/
def groupLe (g1 g2 : String × List RawLog) : Prop :=
  pairLe (minKey g1.2) (minKey g2.2)

instance : DecidableRel groupLe := fun g1 g2 =>
  inferInstanceAs (Decidable (pairLe (minKey g1.2) (minKey g2.2)))

/-- Append a parsed log to the bucket of its transaction hash, creating the
bucket at the end on first sight (JavaScript `Map` insertion-order
semantics of `logsByTx`). -/
def pushLog : List (String × List RawLog) → RawLog → List (String × List RawLog)
  | [], r => [(r.txHash, [r])]
  | (h, b) :: rest, r =>
    if h = r.txHash then (h, b ++ [r]) :: rest else (h, b) :: pushLog rest r

/-- First pass of `reconstructStateFromEvents`: parse and group all logs by
transaction hash, skipping unparseable logs. -/
def groupByTx (logs : List RawLog) : List (String × List RawLog) :=
  logs.foldl
    (fun acc r => match r.data with
      | none => acc
      | some _ => pushLog acc r) []

/-- `Array.from(logsByTx.entries()).sort(...)`: transactions sorted,
stably, by minimum `(blockNumber, transactionIndex)`. -/
def sortedTxEntries (logs : List RawLog) : List (String × List RawLog) :=
  List.insertionSort groupLe (groupByTx logs)

/-- Whether a log is a transfer whose (parseable) recipient is the null
address — the canonical burn signal detected by the per-transaction first
pass (`hasTransferBurn`); a transfer with an unparseable recipient is
caught and does not set the flag. -/
def isCanonicalSignal (r : RawLog) : Bool :=
  match r.data with
  | some (.Transfer _ toS _) =>
    match Address.fromString toS with
    | some a => a.isZero
    | none => false
  | _ => false

/-- Whether a log is an explicit `Burn` event. -/
def isBurnRecord (r : RawLog) : Bool :=
  match r.data with
  | some (.Burn _ _) => true
  | _ => false

/-- Replay of one parsed event inside the second pass's per-event
`try`/`catch`: parse failures of `Address.from` and errors thrown by the
token operations alike are returned as a diagnostic message (the
`console.warn` of the catch block) while the token keeps any mutation made
before the throw.  A `Burn` event in a transaction whose `hasTransferBurn`
flag is set is skipped without parsing and without diagnostic. -/
def applyEvent (hasTransferBurn : Bool) (t : Token) (e : EventData) :
    Token × Option String :=
  match e with
  | .Mint toS n =>
    match Address.fromString toS with
    | none => (t, some "Invalid address in Mint event")
    | some a => t.mint a n
  | .Transfer fromS toS n =>
    match Address.fromString fromS, Address.fromString toS with
    | some fa, some ta => if ta.isZero then t.burn fa n else t.transfer fa ta n
    | _, _ => (t, some "Invalid address in Transfer event")
  | .Burn fromS n =>
    if hasTransferBurn then (t, none)
    else
      match Address.fromString fromS with
      | none => (t, some "Invalid address in Burn event")
      | some fa => t.burn fa n

/-- The second pass's loop over a transaction's sorted logs, threading the
token and collecting diagnostics in order. -/
def applyLogs (hasTransferBurn : Bool) : List RawLog → Token → Token × List String
  | [], t => (t, [])
  | r :: rs, t =>
    match r.data with
    | none => applyLogs hasTransferBurn rs t
    | some e =>
      let step := applyEvent hasTransferBurn t e
      let rest := applyLogs hasTransferBurn rs step.1
      (rest.1, step.2.toList ++ rest.2)

/-- Processing of one transaction: sort its logs by
`(blockNumber, transactionIndex, logIndex)`, compute the
`hasTransferBurn` flag in a first pass over the sorted logs, then apply
them in order. -/
def processTxLogs (bucket : List RawLog) (t : Token) : Token × List String :=
  let sortedLogs := List.insertionSort logLe bucket
  applyLogs (sortedLogs.any isCanonicalSignal) sortedLogs t

/-- `reconstructStateFromEvents(tokenAddress)` applied to the (already
fetched) raw logs: a fresh token, transactions in sorted order, each
transaction's logs replayed through `processTxLogs`. -/
def reconstructStateFromEvents (tokenAddress : Address) (logs : List RawLog) :
    Token × List String :=
  (sortedTxEntries logs).foldl
    (fun acc g =>
      let step := processTxLogs g.2 acc.1
      (step.1, acc.2 ++ step.2))
    (Token.create tokenAddress, [])

/-! ## Order lemmas for the two sort comparators -/

theorem pairLe_refl (a : Nat × Nat) : pairLe a a := Or.inr ⟨rfl, Nat.le_refl _⟩

theorem pairLe_total (a b : Nat × Nat) : pairLe a b ∨ pairLe b a := by
  rcases Nat.lt_trichotomy a.1 b.1 with h | h | h
  · exact Or.inl (Or.inl h)
  · rcases Nat.le_total a.2 b.2 with h2 | h2
    · exact Or.inl (Or.inr ⟨h, h2⟩)
    · exact Or.inr (Or.inr ⟨h.symm, h2⟩)
  · exact Or.inr (Or.inl h)

theorem pairLe_trans {a b c : Nat × Nat} (h1 : pairLe a b) (h2 : pairLe b c) :
    pairLe a c := by
  rcases h1 with h1 | ⟨h1, h1b⟩
  · rcases h2 with h2 | ⟨h2, _⟩
    · exact Or.inl (Nat.lt_trans h1 h2)
    · exact Or.inl (h2 ▸ h1)
  · rcases h2 with h2 | ⟨h2, h2b⟩
    · exact Or.inl (h1 ▸ h2)
    · exact Or.inr ⟨h1.trans h2, Nat.le_trans h1b h2b⟩

theorem pairLe_antisymm {a b : Nat × Nat} (h1 : pairLe a b) (h2 : pairLe b a) :
    a = b := by
  rcases h1 with h1 | ⟨h1, h1b⟩
  · rcases h2 with h2 | ⟨h2, _⟩
    · exact absurd (Nat.lt_trans h1 h2) (Nat.lt_irrefl _)
    · exact absurd h1 (h2 ▸ Nat.lt_irrefl _)
  · rcases h2 with h2 | ⟨h2, h2b⟩
    · exact absurd h2 (h1 ▸ Nat.lt_irrefl _)
    · exact Prod.ext h1 (Nat.le_antisymm h1b h2b)

theorem tripleLe_total (a b : Nat × Nat × Nat) : tripleLe a b ∨ tripleLe b a := by
  rcases Nat.lt_trichotomy a.1 b.1 with h | h | h
  · exact Or.inl (Or.inl h)
  · rcases pairLe_total a.2 b.2 with h2 | h2
    · exact Or.inl (Or.inr ⟨h, h2⟩)
    · exact Or.inr (Or.inr ⟨h.symm, h2⟩)
  · exact Or.inr (Or.inl h)

theorem tripleLe_trans {a b c : Nat × Nat × Nat} (h1 : tripleLe a b)
    (h2 : tripleLe b c) : tripleLe a c := by
  rcases h1 with h1 | ⟨h1, h1b⟩
  · rcases h2 with h2 | ⟨h2, _⟩
    · exact Or.inl (Nat.lt_trans h1 h2)
    · exact Or.inl (h2 ▸ h1)
  · rcases h2 with h2 | ⟨h2, h2b⟩
    · exact Or.inl (h1 ▸ h2)
    · exact Or.inr ⟨h1.trans h2, pairLe_trans h1b h2b⟩

theorem tripleLe_antisymm {a b : Nat × Nat × Nat} (h1 : tripleLe a b)
    (h2 : tripleLe b a) : a = b := by
  rcases h1 with h1 | ⟨h1, h1b⟩
  · rcases h2 with h2 | ⟨h2, _⟩
    · exact absurd (Nat.lt_trans h1 h2) (Nat.lt_irrefl _)
    · exact absurd h1 (h2 ▸ Nat.lt_irrefl _)
  · rcases h2 with h2 | ⟨h2, h2b⟩
    · exact absurd h2 (h1 ▸ Nat.lt_irrefl _)
    · exact Prod.ext h1 (pairLe_antisymm h1b h2b)

instance : IsTotal (String × List RawLog) groupLe :=
  ⟨fun g1 g2 => pairLe_total (minKey g1.2) (minKey g2.2)⟩

instance : IsTrans (String × List RawLog) groupLe :=
  ⟨fun _ _ _ h1 h2 => pairLe_trans h1 h2⟩

instance : IsTotal RawLog logLe :=
  ⟨fun r s => tripleLe_total (tripleKey r) (tripleKey s)⟩

instance : IsTrans RawLog logLe :=
  ⟨fun _ _ _ h1 h2 => tripleLe_trans h1 h2⟩

/-! ## Claim C8: error handling during replay -/

/-- Claim C8, counterexample.  A history whose replay triggers an
`InsufficientBalance` precondition error: a transfer of 100 from an
account that was never funded, followed (in a later block, different
transaction) by a mint of 50.  The claim says the reconstruction call
fails and surfaces the error; instead the error is caught per event, the
call returns normally with the error only in its diagnostics, and replay
continued over the remaining events — the later mint is applied and the
returned state has balance 50 and total supply 50. -/
theorem c8_error_swallowed_counterexample :
    (reconstructStateFromEvents contractAddr
      [⟨some (.Transfer alice.value bob.value 100), "0xtxa", 1, 0, 0⟩,
       ⟨some (.Mint alice.value 50), "0xtxb", 2, 0, 0⟩]).2 =
      ["Insufficient balance for transfer"] ∧
    (reconstructStateFromEvents contractAddr
      [⟨some (.Transfer alice.value bob.value 100), "0xtxa", 1, 0, 0⟩,
       ⟨some (.Mint alice.value 50), "0xtxb", 2, 0, 0⟩]).1.totalSupply = 50 ∧
    Token.getBalance (reconstructStateFromEvents contractAddr
      [⟨some (.Transfer alice.value bob.value 100), "0xtxa", 1, 0, 0⟩,
       ⟨some (.Mint alice.value 50), "0xtxb", 2, 0, 0⟩]).1 alice = 50 := by
  refine ⟨rfl, rfl, rfl⟩

/-- Claim C8, amended.  A precondition error raised while replaying an
event does not abort the reconstruction: the per-event catch records one
diagnostic for the failing event and the loop continues over the remaining
events from the state the failing call left behind; moreover a failing
`Mint`, and a failing `Transfer` whose recipient is not the null address,
leave the token unchanged (a failing burn may keep a partial debit). -/
theorem c8_replay_continues_after_error (hTB : Bool) (r : RawLog)
    (rs : List RawLog) (t : Token) (e : EventData) (hr : r.data = some e)
    (hf : (applyEvent hTB t e).2.isSome = true) :
    applyLogs hTB (r :: rs) t =
      ((applyLogs hTB rs (applyEvent hTB t e).1).1,
        (applyEvent hTB t e).2.toList ++
          (applyLogs hTB rs (applyEvent hTB t e).1).2) ∧
    (∀ toS n, e = .Mint toS n → (applyEvent hTB t e).1 = t) ∧
    (∀ fromS toS n, e = .Transfer fromS toS n →
      (∀ a, Address.fromString toS = some a → a.isZero = false) →
      (applyEvent hTB t e).1 = t) := by
  refine ⟨by simp [applyLogs, hr], ?_, ?_⟩
  · intro toS n he
    subst he
    simp only [applyEvent] at hf ⊢
    cases hto : Address.fromString toS with
    | none => simp [hto]
    | some a =>
      simp only [hto] at hf ⊢
      simp only [Token.mint] at hf ⊢
      by_cases hz : a.isZero
      · simp [hz]
      · simp [hz] at hf
  · intro fromS toS n he hz
    subst he
    simp only [applyEvent] at hf ⊢
    cases hfrom : Address.fromString fromS with
    | none => simp [hfrom]
    | some fa =>
      cases hto : Address.fromString toS with
      | none => simp [hfrom, hto]
      | some ta =>
        have hz2 := hz ta hto
        simp only [hfrom, hto, hz2, if_neg Bool.false_ne_true] at hf ⊢
        simp only [Token.transfer, hz2] at hf ⊢
        by_cases hb : t.getBalance fa < n
        · simp [hb]
        · simp [hb] at hf

/-- Witness for `c8_replay_continues_after_error` at a concrete input:
the unfunded transfer of 100 fails and replay continues into a mint of
50. -/
theorem c8_replay_continues_after_error_witness :
    applyLogs false
      [⟨some (.Transfer alice.value bob.value 100), "0xtxa", 1, 0, 0⟩,
       ⟨some (.Mint alice.value 50), "0xtxb", 2, 0, 0⟩]
      (Token.create contractAddr) =
      ((applyLogs false [⟨some (.Mint alice.value 50), "0xtxb", 2, 0, 0⟩]
          (applyEvent false (Token.create contractAddr)
            (.Transfer alice.value bob.value 100)).1).1,
        (applyEvent false (Token.create contractAddr)
            (.Transfer alice.value bob.value 100)).2.toList ++
          (applyLogs false [⟨some (.Mint alice.value 50), "0xtxb", 2, 0, 0⟩]
            (applyEvent false (Token.create contractAddr)
              (.Transfer alice.value bob.value 100)).1).2) :=
  (c8_replay_continues_after_error false
    ⟨some (.Transfer alice.value bob.value 100), "0xtxa", 1, 0, 0⟩
    [⟨some (.Mint alice.value 50), "0xtxb", 2, 0, 0⟩]
    (Token.create contractAddr)
    (.Transfer alice.value bob.value 100) rfl (by rfl)).1

/-! ## Claim C7: cross-unit ordering -/

/-- Scenario C causal unit with global order `(3, 0)`: the mint creating
the funds. -/
def mintUnitLog (m : Nat) : RawLog :=
  ⟨some (.Mint alice.value m), "0xtxmint", 3, 0, 0⟩

/-- Scenario C causal unit with global order `(5, 0)`: the transfer
spending the minted funds. -/
def spendUnitLog (n : Nat) : RawLog :=
  ⟨some (.Transfer alice.value bob.value n), "0xtxspend", 5, 0, 0⟩

/-- Claim C7.  The engine sorts causal units ascending by their effective
`(blockNumber, transactionIndex)` order before applying any event (first
conjunct, for every input).  Consequently, delivering the spending unit
(global order `(5, 0)`) before the mint unit (global order `(3, 0)`)
replays the mint first: the result equals the in-order delivery, no
precondition error occurs, and the final state is the expected one —
for any amounts with `n ≤ m`. -/
theorem c7_engine_reorders_units (m n : Nat) (h : n ≤ m) :
    (∀ logs : List RawLog, List.Sorted groupLe (sortedTxEntries logs)) ∧
    reconstructStateFromEvents contractAddr [spendUnitLog n, mintUnitLog m] =
      reconstructStateFromEvents contractAddr [mintUnitLog m, spendUnitLog n] ∧
    (reconstructStateFromEvents contractAddr
      [spendUnitLog n, mintUnitLog m]).2 = [] ∧
    Token.getBalance (reconstructStateFromEvents contractAddr
      [spendUnitLog n, mintUnitLog m]).1 alice = m - n ∧
    Token.getBalance (reconstructStateFromEvents contractAddr
      [spendUnitLog n, mintUnitLog m]).1 bob = n ∧
    (reconstructStateFromEvents contractAddr
      [spendUnitLog n, mintUnitLog m]).1.totalSupply = m := by
  have hmint : processTxLogs [mintUnitLog m] (Token.create contractAddr) =
      (⟨contractAddr, 0 + m, [(alice.value, 0 + m)]⟩, []) := rfl
  have htrans : processTxLogs [spendUnitLog n]
      (⟨contractAddr, 0 + m, [(alice.value, 0 + m)]⟩ : Token) =
      (⟨contractAddr, 0 + m,
        [(alice.value, 0 + m - n), (bob.value, 0 + n)]⟩, []) := by
    show applyLogs false [spendUnitLog n] _ = _
    simp only [applyLogs, applyEvent, spendUnitLog]
    have hfrom : Address.fromString alice.value = some alice := rfl
    have hto : Address.fromString bob.value = some bob := rfl
    simp only [hfrom, hto]
    have hbz : bob.isZero = false := rfl
    simp only [hbz, Bool.false_eq_true, if_false]
    simp only [Token.transfer, hbz, Bool.false_eq_true, if_false]
    have hbal : Token.getBalance
        (⟨contractAddr, 0 + m, [(alice.value, 0 + m)]⟩ : Token) alice = 0 + m := rfl
    simp only [hbal]
    have hnm : ¬ (0 + m < n) := by omega
    rw [if_neg hnm]
    rfl
  have e1 : reconstructStateFromEvents contractAddr
      [spendUnitLog n, mintUnitLog m] =
      ((processTxLogs [spendUnitLog n]
          (processTxLogs [mintUnitLog m] (Token.create contractAddr)).1).1,
        ([] ++ (processTxLogs [mintUnitLog m] (Token.create contractAddr)).2) ++
          (processTxLogs [spendUnitLog n]
            (processTxLogs [mintUnitLog m] (Token.create contractAddr)).1).2) := rfl
  have efinal : reconstructStateFromEvents contractAddr
      [spendUnitLog n, mintUnitLog m] =
      (⟨contractAddr, 0 + m,
        [(alice.value, 0 + m - n), (bob.value, 0 + n)]⟩, []) := by
    rw [e1, hmint]
    simp only [htrans]
    rfl
  refine ⟨fun logs => List.sorted_insertionSort groupLe (groupByTx logs),
    rfl, ?_, ?_, ?_, ?_⟩
  · rw [efinal]
  · rw [efinal]
    show 0 + m - n = m - n
    rw [Nat.zero_add]
  · rw [efinal]
    show 0 + n = n
    rw [Nat.zero_add]
  · rw [efinal]
    show 0 + m = m
    rw [Nat.zero_add]

/-- Witness for `c7_engine_reorders_units` at the concrete amounts of the
spec scenario (mint 1000, spend 300). -/
theorem c7_engine_reorders_units_witness :
    (reconstructStateFromEvents contractAddr
      [spendUnitLog 300, mintUnitLog 1000]).2 = [] ∧
    Token.getBalance (reconstructStateFromEvents contractAddr
      [spendUnitLog 300, mintUnitLog 1000]).1 alice = 700 := by
  have h := c7_engine_reorders_units 1000 300 (by decide)
  exact ⟨h.2.2.1, h.2.2.2.1⟩

/-! ## Claim C3: exactly-once burn -/

/-- The amount carried by a canonical burn signal (transfer to the null
address), zero for any other record. -/
def canonAmount (r : RawLog) : Nat :=
  match r.data with
  | some (.Transfer _ _ n) => if isCanonicalSignal r then n else 0
  | _ => 0

/-- Total amount of the canonical burn signals of a record list. -/
def canonSum (logs : List RawLog) : Nat := (logs.map canonAmount).sum

/-- With the `hasTransferBurn` flag set, explicit `Burn` events are skipped
outright: replay is unchanged when they are removed. -/
theorem applyLogs_true_filter_burn (es : List RawLog) (t : Token) :
    applyLogs true es t =
      applyLogs true (es.filter (fun r => !isBurnRecord r)) t := by
  induction es generalizing t with
  | nil => rfl
  | cons r rs ih =>
    cases hr : r.data with
    | none =>
      have hb : isBurnRecord r = false := by simp [isBurnRecord, hr]
      rw [List.filter_cons]
      simp only [hb, Bool.not_false, if_true]
      simp only [applyLogs, hr]
      exact ih t
    | some e =>
      cases e with
      | Burn fromS n =>
        have hb : isBurnRecord r = true := by simp [isBurnRecord, hr]
        rw [List.filter_cons]
        simp only [hb, Bool.not_true, Bool.false_eq_true, if_false]
        simp only [applyLogs, hr, applyEvent, if_pos rfl]
        exact ih t
      | Mint toS n =>
        have hb : isBurnRecord r = false := by simp [isBurnRecord, hr]
        rw [List.filter_cons]
        simp only [hb, Bool.not_false, if_true]
        simp only [applyLogs, hr]
        rw [ih]
      | Transfer fromS toS n =>
        have hb : isBurnRecord r = false := by simp [isBurnRecord, hr]
        rw [List.filter_cons]
        simp only [hb, Bool.not_false, if_true]
        simp only [applyLogs, hr]
        rw [ih]

/-- A successful burn records the burned amount: supply bookkeeping for
one event list consisting only of canonical signals and explicit `Burn`
events, replayed with the `hasTransferBurn` flag set and no diagnostics
produced. -/
theorem applyLogs_true_supply (es : List RawLog) (t : Token)
    (honly : ∀ r ∈ es, isCanonicalSignal r = true ∨ isBurnRecord r = true)
    (hok : (applyLogs true es t).2 = []) :
    t.totalSupply = (applyLogs true es t).1.totalSupply + canonSum es := by
  induction es generalizing t with
  | nil => simp [applyLogs, canonSum]
  | cons r rs ih =>
    have hro := honly r (List.mem_cons_self r rs)
    cases hr : r.data with
    | none =>
      exfalso
      rcases hro with hc | hb
      · simp [isCanonicalSignal, hr] at hc
      · simp [isBurnRecord, hr] at hb
    | some e =>
      cases e with
      | Burn fromS n =>
        have hca : canonAmount r = 0 := by simp [canonAmount, hr]
        simp only [applyLogs, hr, applyEvent, if_pos rfl] at hok ⊢
        have := ih t (fun s hs => honly s (List.mem_cons_of_mem r hs)) hok
        simpa [canonSum, hca] using this
      | Mint toS n =>
        exfalso
        rcases hro with hc | hb
        · simp [isCanonicalSignal, hr] at hc
        · simp [isBurnRecord, hr] at hb
      | Transfer fromS toS n =>
        have hc : isCanonicalSignal r = true := by
          rcases hro with hc | hb
          · exact hc
          · simp [isBurnRecord, hr] at hb
        have hca : canonAmount r = n := by simp [canonAmount, hr, hc]
        obtain ⟨ta, hta, htz⟩ :
            ∃ ta, Address.fromString toS = some ta ∧ ta.isZero = true := by
          simp only [isCanonicalSignal, hr] at hc
          cases hto : Address.fromString toS with
          | none => simp [hto] at hc
          | some a => exact ⟨a, rfl, by simpa [hto] using hc⟩
        cases hfrom : Address.fromString fromS with
        | none =>
          exfalso
          simp [applyLogs, hr, applyEvent, hfrom, hta] at hok
        | some fa =>
          have hstep : applyEvent true t (.Transfer fromS toS n) =
              Token.burn t fa n := by
            simp [applyEvent, hfrom, hta, htz]
          by_cases h1 : t.getBalance fa < n
          · exfalso
            simp [applyLogs, hr, hstep, Token.burn, h1] at hok
          · by_cases h2 : t.totalSupply < n
            · exfalso
              simp [applyLogs, hr, hstep, Token.burn, h1, h2] at hok
            · have hburn : Token.burn t fa n =
                  ({ contractAddress := t.contractAddress,
                      totalSupply := t.totalSupply - n,
                      accounts :=
                        mapSet t.accounts fa.value (t.getBalance fa - n) },
                    none) := by
                simp [Token.burn, h1, h2]
              simp only [applyLogs, hr, hstep, hburn, Option.toList,
                List.nil_append] at hok ⊢
              have hrec := ih _
                (fun s hs => honly s (List.mem_cons_of_mem r hs)) hok
              simp only [canonSum] at hrec ⊢
              simp only [List.map_cons, List.sum_cons, hca]
              have h2le : n ≤ t.totalSupply := Nat.not_lt.mp h2
              omega

/-- Claim C3.  For a causal unit (transaction) containing only canonical
destroy-signals (transfers to the null address) and explicit `Burn`
events, with at least one canonical signal present and replay succeeding:
the replay equals the replay with every explicit `Burn` event removed
(each of the k redundant events is skipped, none is applied), and the
total supply drops by exactly the sum of the k canonical amounts — k
reductions, not 2k, in any arrangement of the unit's `logIndex` values. -/
theorem c3_exactly_once_burn (bucket : List RawLog) (t : Token)
    (hc : (List.insertionSort logLe bucket).any isCanonicalSignal = true)
    (honly : ∀ r ∈ bucket, isCanonicalSignal r = true ∨ isBurnRecord r = true)
    (hok : (processTxLogs bucket t).2 = []) :
    processTxLogs bucket t =
      applyLogs true
        ((List.insertionSort logLe bucket).filter (fun r => !isBurnRecord r)) t ∧
    t.totalSupply = (processTxLogs bucket t).1.totalSupply + canonSum bucket := by
  have hunfold : processTxLogs bucket t =
      applyLogs true (List.insertionSort logLe bucket) t := by
    simp only [processTxLogs, hc]
  have honly2 : ∀ r ∈ (List.insertionSort logLe bucket),
      isCanonicalSignal r = true ∨ isBurnRecord r = true := by
    intro r hrm
    exact honly r ((List.perm_insertionSort logLe bucket).mem_iff.mp hrm)
  have hperm : List.Perm (List.insertionSort logLe bucket) bucket :=
    List.perm_insertionSort logLe bucket
  have hsum : canonSum (List.insertionSort logLe bucket) = canonSum bucket :=
    (hperm.map canonAmount).sum_eq
  constructor
  · rw [hunfold]
    exact applyLogs_true_filter_burn _ t
  · rw [hunfold] at hok ⊢
    have := applyLogs_true_supply _ t honly2 hok
    rw [hsum] at this
    exact this

/-- Witness for `c3_exactly_once_burn`: spec Scenario B — one transaction
holding `Burn(bob, 100)` at log index 1 and `Transfer(bob, null, 100)` at
log index 2, replayed from a state where bob holds 1000 of a total supply
of 1000: exactly one reduction of 100 (supply 900, balance 900). -/
theorem c3_exactly_once_burn_witness :
    (1000 : Nat) =
      (processTxLogs
        [⟨some (.Burn bob.value 100), "0xtxd", 1, 1, 1⟩,
         ⟨some (.Transfer bob.value zeroAddressString 100), "0xtxd", 1, 1, 2⟩]
        ⟨contractAddr, 1000, [(bob.value, 1000)]⟩).1.totalSupply +
      canonSum
        [⟨some (.Burn bob.value 100), "0xtxd", 1, 1, 1⟩,
         ⟨some (.Transfer bob.value zeroAddressString 100), "0xtxd", 1, 1, 2⟩] ∧
    (processTxLogs
      [⟨some (.Burn bob.value 100), "0xtxd", 1, 1, 1⟩,
       ⟨some (.Transfer bob.value zeroAddressString 100), "0xtxd", 1, 1, 2⟩]
      ⟨contractAddr, 1000, [(bob.value, 1000)]⟩).1.totalSupply = 900 ∧
    Token.getBalance (processTxLogs
      [⟨some (.Burn bob.value 100), "0xtxd", 1, 1, 1⟩,
       ⟨some (.Transfer bob.value zeroAddressString 100), "0xtxd", 1, 1, 2⟩]
      ⟨contractAddr, 1000, [(bob.value, 1000)]⟩).1 bob = 900 := by
  refine ⟨(c3_exactly_once_burn
    [⟨some (.Burn bob.value 100), "0xtxd", 1, 1, 1⟩,
     ⟨some (.Transfer bob.value zeroAddressString 100), "0xtxd", 1, 1, 2⟩]
    ⟨contractAddr, 1000, [(bob.value, 1000)]⟩
    (by rfl) (by decide) (by rfl)).2, rfl, rfl⟩

/-! ## Claim C10: the null address never holds balance -/

/-- An address whose stored string is the zero-address string is detected
by `isZero`. -/
theorem isZero_of_value_eq (a : Address) (h : a.value = zeroAddressString) :
    a.isZero = true := by
  simp [Address.isZero, Address.equalsAddr, h, Address.zero]

/-- Contrapositive: an address that fails `isZero` carries a different
string than the zero address. -/
theorem value_ne_of_not_isZero (a : Address) (h : a.isZero = false) :
    a.value ≠ zeroAddressString := by
  intro he
  rw [isZero_of_value_eq a he] at h
  exact absurd h (by decide)

/-- The string stored in `Address.zero`. -/
theorem zero_value : Address.zero.value = zeroAddressString := rfl

/-- `mint` never credits the null address: its balance stays zero. -/
theorem mint_preserves_zero_balance (t : Token) (toA : Address) (n : Nat)
    (h : t.getBalance Address.zero = 0) :
    (t.mint toA n).1.getBalance Address.zero = 0 := by
  by_cases hz : toA.isZero
  · simp [Token.mint, hz, h]
  · have hne : zeroAddressString ≠ toA.value := by
      intro he
      exact value_ne_of_not_isZero toA (Bool.of_not_eq_true hz) he.symm
    simp only [Token.mint, hz, Bool.false_eq_true, if_false]
    simp only [Token.getBalance, zero_value] at h ⊢
    rw [mapGet_mapSet_other _ _ _ _ hne]
    exact h

/-- `transfer` never credits the null address (its recipient is checked
non-null); when the null address is the debited side, only a zero amount
passes the balance check, leaving the balance at zero. -/
theorem transfer_preserves_zero_balance (t : Token) (fromA toA : Address)
    (n : Nat) (h : t.getBalance Address.zero = 0) :
    (t.transfer fromA toA n).1.getBalance Address.zero = 0 := by
  by_cases hz : toA.isZero
  · simp [Token.transfer, hz, h]
  · have hneTo : zeroAddressString ≠ toA.value := by
      intro he
      exact value_ne_of_not_isZero toA (Bool.of_not_eq_true hz) he.symm
    simp only [Token.transfer, hz, Bool.false_eq_true, if_false]
    by_cases hb : t.getBalance fromA < n
    · simp [hb, h]
    · simp only [hb, if_false]
      simp only [Token.getBalance, zero_value] at h ⊢
      rw [mapGet_mapSet_other _ _ _ _ hneTo]
      by_cases hf : fromA.value = zeroAddressString
      · have hfb : (mapGet t.accounts fromA.value).getD 0 = 0 := by
          rw [hf]
          exact h
        have hb2 : ¬ ((mapGet t.accounts fromA.value).getD 0 < n) := by
          simpa [Token.getBalance] using hb
        have hn0 : n = 0 := by
          rw [hfb] at hb2
          omega
        rw [← hf, mapGet_mapSet_self]
        simp [hfb, hn0]
      · have hne : zeroAddressString ≠ fromA.value := fun he => hf he.symm
        rw [mapGet_mapSet_other _ _ _ _ hne]
        exact h

/-- `burn` debits only; the null address can only be debited by zero,
keeping its balance at zero (in both the success and the
supply-underflow outcome). -/
theorem burn_preserves_zero_balance (t : Token) (fromA : Address) (n : Nat)
    (h : t.getBalance Address.zero = 0) :
    (t.burn fromA n).1.getBalance Address.zero = 0 := by
  simp only [Token.burn]
  by_cases hb : t.getBalance fromA < n
  · simp [hb, h]
  · simp only [hb, if_false]
    have key : Token.getBalance
        { t with accounts := mapSet t.accounts fromA.value (t.getBalance fromA - n) }
        Address.zero = 0 := by
      simp only [Token.getBalance, zero_value] at h ⊢
      by_cases hf : fromA.value = zeroAddressString
      · have hfb : (mapGet t.accounts fromA.value).getD 0 = 0 := by
          rw [hf]
          exact h
        have hb2 : ¬ ((mapGet t.accounts fromA.value).getD 0 < n) := by
          simpa [Token.getBalance] using hb
        have hn0 : n = 0 := by
          rw [hfb] at hb2
          omega
        rw [← hf, mapGet_mapSet_self]
        simp [Token.getBalance, hfb, hn0]
      · have hne : zeroAddressString ≠ fromA.value := fun he => hf he.symm
        rw [mapGet_mapSet_other _ _ _ _ hne]
        exact h
    by_cases hs : t.totalSupply < n
    · simp only [hs, if_true]
      exact key
    · simp only [hs, Bool.false_eq_true, if_false]
      exact key

/-- Replay of a single event keeps the null address at balance zero. -/
theorem applyEvent_preserves_zero_balance (hTB : Bool) (t : Token)
    (e : EventData) (h : t.getBalance Address.zero = 0) :
    ((applyEvent hTB t e).1).getBalance Address.zero = 0 := by
  cases e with
  | Mint toS n =>
    simp only [applyEvent]
    cases hto : Address.fromString toS with
    | none => exact h
    | some a => exact mint_preserves_zero_balance t a n h
  | Transfer fromS toS n =>
    simp only [applyEvent]
    cases hfrom : Address.fromString fromS with
    | none => exact h
    | some fa =>
      cases hto : Address.fromString toS with
      | none => exact h
      | some ta =>
        by_cases hz : ta.isZero
        · simp only [hz, if_true]
          exact burn_preserves_zero_balance t fa n h
        · simp only [hz, Bool.false_eq_true, if_false]
          exact transfer_preserves_zero_balance t fa ta n h
  | Burn fromS n =>
    simp only [applyEvent]
    by_cases hb : hTB
    · simp [hb, h]
    · simp only [hb, Bool.false_eq_true, if_false]
      cases hfrom : Address.fromString fromS with
      | none => exact h
      | some fa => exact burn_preserves_zero_balance t fa n h

/-- Replay of an event list keeps the null address at balance zero. -/
theorem applyLogs_preserves_zero_balance (hTB : Bool) (es : List RawLog)
    (t : Token) (h : t.getBalance Address.zero = 0) :
    ((applyLogs hTB es t).1).getBalance Address.zero = 0 := by
  induction es generalizing t with
  | nil => exact h
  | cons r rs ih =>
    cases hr : r.data with
    | none =>
      simp only [applyLogs, hr]
      exact ih t h
    | some e =>
      simp only [applyLogs, hr]
      exact ih _ (applyEvent_preserves_zero_balance hTB t e h)

/-- Claim C10.  In every state returned by `reconstructStateFromEvents`,
for every input log set, the balance of the null address
`0x0000000000000000000000000000000000000000` is zero: mints to it are
rejected by the state machine, transfers to it are applied as burns
debiting the sender, and it can never be debited below zero. -/
theorem c10_null_address_balance_zero (tokenAddress : Address)
    (logs : List RawLog) :
    Token.getBalance (reconstructStateFromEvents tokenAddress logs).1
      Address.zero = 0 := by
  unfold reconstructStateFromEvents
  have hgen : ∀ (gs : List (String × List RawLog)) (acc : Token × List String),
      acc.1.getBalance Address.zero = 0 →
      ((gs.foldl (fun acc g =>
          let step := processTxLogs g.2 acc.1
          (step.1, acc.2 ++ step.2)) acc).1).getBalance Address.zero = 0 := by
    intro gs
    induction gs with
    | nil => intro acc h; exact h
    | cons g gs ih =>
      intro acc h
      simp only [List.foldl_cons]
      exact ih _ (applyLogs_preserves_zero_balance _ _ _ h)
  exact hgen (sortedTxEntries logs) (Token.create tokenAddress, []) rfl

/-! ## Claim C4: order independence of reconstruction -/

/-- Bucket lookup in the grouped representation (`logsByTx.get`). -/
def bucketOf (gs : List (String × List RawLog)) (h : String) : List RawLog :=
  match gs with
  | [] => []
  | (k, b) :: rest => if k = h then b else bucketOf rest h

/-- The logs a transaction hash contributes: the parseable records carrying
that hash, in input order. -/
def txBucket (logs : List RawLog) (h : String) : List RawLog :=
  logs.filter (fun r => r.data.isSome && r.txHash == h)

theorem bucketOf_pushLog (gs : List (String × List RawLog)) (r : RawLog)
    (h : String) :
    bucketOf (pushLog gs r) h =
      if h = r.txHash then bucketOf gs h ++ [r] else bucketOf gs h := by
  induction gs with
  | nil =>
    by_cases he : h = r.txHash
    · simp [pushLog, bucketOf, he]
    · have hne : ¬ (r.txHash = h) := fun e => he e.symm
      simp [pushLog, bucketOf, he, hne]
  | cons g rest ih =>
    obtain ⟨k, b⟩ := g
    by_cases hk : k = r.txHash
    · by_cases hh : k = h
      · have h1 : h = r.txHash := hh.symm.trans hk
        simp [pushLog, bucketOf, hk, h1]
      · have h2 : ¬ (h = r.txHash) := fun e => hh (hk.trans e.symm)
        have h3 : ¬ (r.txHash = h) := fun e => h2 e.symm
        simp [pushLog, bucketOf, hk, h2, h3]
    · by_cases hh : k = h
      · have h2 : ¬ (h = r.txHash) := fun e => hk (hh.trans e)
        simp [pushLog, bucketOf, hh, hk, h2]
      · simp [pushLog, bucketOf, hk, hh, ih]

theorem fst_pushLog (gs : List (String × List RawLog)) (r : RawLog) :
    (pushLog gs r).map Prod.fst =
      if r.txHash ∈ gs.map Prod.fst then gs.map Prod.fst
      else gs.map Prod.fst ++ [r.txHash] := by
  induction gs with
  | nil => simp [pushLog]
  | cons g rest ih =>
    obtain ⟨k, b⟩ := g
    by_cases hk : k = r.txHash
    · subst hk
      simp [pushLog]
    · have hne : ¬ (r.txHash = k) := fun e => hk e.symm
      by_cases hmem : r.txHash ∈ rest.map Prod.fst
      · simp [pushLog, hk, hmem, ih, hne]
      · simp [pushLog, hk, hmem, ih, hne]

theorem nodup_fst_pushLog (gs : List (String × List RawLog)) (r : RawLog)
    (h : (gs.map Prod.fst).Nodup) : ((pushLog gs r).map Prod.fst).Nodup := by
  rw [fst_pushLog]
  by_cases hmem : r.txHash ∈ gs.map Prod.fst
  · simpa [hmem] using h
  · simp only [hmem, if_false]
    refine List.Nodup.append h (List.nodup_singleton _) ?_
    intro x hx hx2
    have hxe : x = r.txHash := by simpa using hx2
    exact hmem (hxe ▸ hx)

/-- The grouping fold, with an arbitrary accumulator (for induction). -/
def groupStep (acc : List (String × List RawLog)) (r : RawLog) :
    List (String × List RawLog) :=
  match r.data with
  | none => acc
  | some _ => pushLog acc r

theorem groupByTx_eq_foldl (logs : List RawLog) :
    groupByTx logs = logs.foldl groupStep [] := by
  unfold groupByTx groupStep
  rfl

theorem bucketOf_foldl (logs : List RawLog) :
    ∀ (gs : List (String × List RawLog)) (h : String),
      bucketOf (logs.foldl groupStep gs) h = bucketOf gs h ++ txBucket logs h := by
  induction logs with
  | nil => intro gs h; simp [txBucket]
  | cons r rs ih =>
    intro gs h
    cases hr : r.data with
    | none =>
      have hstep : groupStep gs r = gs := by simp [groupStep, hr]
      have hfil : txBucket (r :: rs) h = txBucket rs h := by
        simp [txBucket, hr]
      simp only [List.foldl_cons, hstep, hfil]
      exact ih gs h
    | some e =>
      have hstep : groupStep gs r = pushLog gs r := by simp [groupStep, hr]
      simp only [List.foldl_cons, hstep]
      rw [ih (pushLog gs r) h, bucketOf_pushLog]
      by_cases he : h = r.txHash
      · have hcond : (r.data.isSome && (r.txHash == h)) = true := by
          simp [hr, he]
        have hfil : txBucket (r :: rs) h = r :: txBucket rs h := by
          simp [txBucket, List.filter_cons, hcond]
        rw [hfil, if_pos he]
        simp
      · have hcond : (r.data.isSome && (r.txHash == h)) = false := by
          simp only [hr, Option.isSome_some, Bool.true_and]
          simpa using fun e => he e.symm
        have hfil : txBucket (r :: rs) h = txBucket rs h := by
          simp [txBucket, List.filter_cons, hcond]
        rw [hfil, if_neg he]

theorem bucketOf_groupByTx (logs : List RawLog) (h : String) :
    bucketOf (groupByTx logs) h = txBucket logs h := by
  rw [groupByTx_eq_foldl, bucketOf_foldl]
  simp [bucketOf]

theorem mem_fst_foldl (logs : List RawLog) :
    ∀ (gs : List (String × List RawLog)) (h : String),
      (h ∈ (logs.foldl groupStep gs).map Prod.fst ↔
        h ∈ gs.map Prod.fst ∨
          ∃ r ∈ logs, r.data.isSome = true ∧ r.txHash = h) := by
  induction logs with
  | nil => intro gs h; simp
  | cons r rs ih =>
    intro gs h
    cases hr : r.data with
    | none =>
      have hstep : groupStep gs r = gs := by simp [groupStep, hr]
      simp only [List.foldl_cons, hstep, ih]
      constructor
      · rintro (hg | ⟨s, hs, hh⟩)
        · exact Or.inl hg
        · exact Or.inr ⟨s, List.mem_cons_of_mem r hs, hh⟩
      · rintro (hg | ⟨s, hs, hh⟩)
        · exact Or.inl hg
        · rcases List.mem_cons.mp hs with rfl | hs2
          · rw [hr] at hh
            exact absurd hh.1 (by simp)
          · exact Or.inr ⟨s, hs2, hh⟩
    | some e =>
      have hstep : groupStep gs r = pushLog gs r := by simp [groupStep, hr]
      simp only [List.foldl_cons, hstep, ih, fst_pushLog]
      by_cases hmem : r.txHash ∈ gs.map Prod.fst
      · simp only [hmem, if_true]
        constructor
        · rintro (hg | ⟨s, hs, hh⟩)
          · exact Or.inl hg
          · exact Or.inr ⟨s, List.mem_cons_of_mem r hs, hh⟩
        · rintro (hg | ⟨s, hs, hh⟩)
          · exact Or.inl hg
          · rcases List.mem_cons.mp hs with rfl | hs2
            · exact Or.inl (hh.2 ▸ hmem)
            · exact Or.inr ⟨s, hs2, hh⟩
      · simp only [hmem, if_false]
        constructor
        · rintro (hg | ⟨s, hs, hh⟩)
          · rcases List.mem_append.mp hg with hg2 | hg3
            · exact Or.inl hg2
            · have : h = r.txHash := by simpa using hg3
              exact Or.inr ⟨r, List.mem_cons_self r rs, by simp [hr, this.symm]⟩
          · exact Or.inr ⟨s, List.mem_cons_of_mem r hs, hh⟩
        · rintro (hg | ⟨s, hs, hh⟩)
          · exact Or.inl (List.mem_append.mpr (Or.inl hg))
          · rcases List.mem_cons.mp hs with rfl | hs2
            · exact Or.inl (List.mem_append.mpr (Or.inr (by simp [hh.2])))
            · exact Or.inr ⟨s, hs2, hh⟩

theorem mem_fst_groupByTx (logs : List RawLog) (h : String) :
    h ∈ (groupByTx logs).map Prod.fst ↔
      ∃ r ∈ logs, r.data.isSome = true ∧ r.txHash = h := by
  rw [groupByTx_eq_foldl, mem_fst_foldl]
  simp

theorem nodup_fst_foldl (logs : List RawLog) :
    ∀ (gs : List (String × List RawLog)), (gs.map Prod.fst).Nodup →
      ((logs.foldl groupStep gs).map Prod.fst).Nodup := by
  induction logs with
  | nil => intro gs h; exact h
  | cons r rs ih =>
    intro gs h
    cases hr : r.data with
    | none =>
      have hstep : groupStep gs r = gs := by simp [groupStep, hr]
      simp only [List.foldl_cons, hstep]
      exact ih gs h
    | some e =>
      have hstep : groupStep gs r = pushLog gs r := by simp [groupStep, hr]
      simp only [List.foldl_cons, hstep]
      exact ih _ (nodup_fst_pushLog gs r h)

theorem nodup_fst_groupByTx (logs : List RawLog) :
    ((groupByTx logs).map Prod.fst).Nodup := by
  rw [groupByTx_eq_foldl]
  exact nodup_fst_foldl logs [] (by simp)

/-- An association list with distinct keys is the map of its key list
through bucket lookup. -/
theorem eq_map_bucketOf (gs : List (String × List RawLog))
    (h : (gs.map Prod.fst).Nodup) :
    gs = (gs.map Prod.fst).map (fun k => (k, bucketOf gs k)) := by
  induction gs with
  | nil => rfl
  | cons g rest ih =>
    obtain ⟨k, b⟩ := g
    simp only [List.map_cons]
    have hk : bucketOf ((k, b) :: rest) k = b := by simp [bucketOf]
    rw [hk]
    have hnd := h
    simp only [List.map_cons, List.nodup_cons] at hnd
    have htail : (rest.map Prod.fst).map (fun x => (x, bucketOf ((k, b) :: rest) x)) =
        (rest.map Prod.fst).map (fun x => (x, bucketOf rest x)) := by
      apply List.map_congr_left
      intro x hx
      have hxk : ¬ (k = x) := fun e => hnd.1 (e ▸ hx)
      simp [bucketOf, hxk]
    rw [htail, ← ih hnd.2]

/-- `groupByTx` in closed form: the first-seen hash list paired with the
input-order buckets. -/
theorem groupByTx_char (logs : List RawLog) :
    groupByTx logs = ((groupByTx logs).map Prod.fst).map
      (fun k => (k, txBucket logs k)) := by
  conv_lhs => rw [eq_map_bucketOf (groupByTx logs) (nodup_fst_groupByTx logs)]
  apply List.map_congr_left
  intro x hx
  rw [bucketOf_groupByTx]

/-- The strict update test of the minimum `reduce` is the complement of the
non-strict comparator. -/
theorem pairLtB_iff (a b : Nat × Nat) : pairLtB a b = true ↔ ¬ pairLe b a := by
  simp only [pairLtB, pairLe, Bool.or_eq_true, Bool.and_eq_true,
    decide_eq_true_eq, beq_iff_eq, not_or, not_and]
  omega

/-- The fold computing the minimum yields either its seed or the key of a
member. -/
theorem foldl_min_mem (rs : List RawLog) :
    ∀ m, (rs.foldl (fun m s => if pairLtB (pairKey s) m then pairKey s else m) m)
        = m ∨
      (rs.foldl (fun m s => if pairLtB (pairKey s) m then pairKey s else m) m)
        ∈ rs.map pairKey := by
  induction rs with
  | nil => intro m; exact Or.inl rfl
  | cons s rest ih =>
    intro m
    simp only [List.foldl_cons]
    by_cases hs : pairLtB (pairKey s) m
    · simp only [hs, if_true]
      rcases ih (pairKey s) with he | hm
      · exact Or.inr (by simp [he])
      · exact Or.inr (List.mem_cons_of_mem _ hm)
    · simp only [hs, if_false]
      rcases ih m with he | hm
      · exact Or.inl he
      · exact Or.inr (List.mem_cons_of_mem _ hm)

/-- The fold computing the minimum is a lower bound of its seed. -/
theorem foldl_min_le_seed (rs : List RawLog) :
    ∀ m, pairLe
      (rs.foldl (fun m s => if pairLtB (pairKey s) m then pairKey s else m) m)
      m := by
  induction rs with
  | nil => intro m; exact pairLe_refl m
  | cons s rest ih =>
    intro m
    simp only [List.foldl_cons]
    by_cases hs : pairLtB (pairKey s) m
    · have h1 : ¬ pairLe m (pairKey s) := (pairLtB_iff _ _).mp hs
      have h2 : pairLe (pairKey s) m := by
        rcases pairLe_total (pairKey s) m with h | h
        · exact h
        · exact absurd h h1
      simp only [hs, if_true]
      exact pairLe_trans (ih (pairKey s)) h2
    · simp only [hs, if_false]
      exact ih m

/-- The fold computing the minimum is a lower bound of every member's
key. -/
theorem foldl_min_le_mem (rs : List RawLog) :
    ∀ m s, s ∈ rs → pairLe
      (rs.foldl (fun m s => if pairLtB (pairKey s) m then pairKey s else m) m)
      (pairKey s) := by
  induction rs with
  | nil => intro m s hs; cases hs
  | cons s0 rest ih =>
    intro m s hs
    simp only [List.foldl_cons]
    rcases List.mem_cons.mp hs with rfl | hs2
    · by_cases h0 : pairLtB (pairKey s) m
      · simp only [h0, if_true]
        exact foldl_min_le_seed rest (pairKey s)
      · simp only [h0, if_false]
        have h1 : pairLe m (pairKey s) := by
          by_contra hcon
          exact h0 ((pairLtB_iff _ _).mpr hcon)
        exact pairLe_trans (foldl_min_le_seed rest m) h1
    · exact ih _ s hs2

/-- `minKey` belongs to the keys of a nonempty bucket. -/
theorem minKey_mem (logs : List RawLog) (hne : logs ≠ []) :
    minKey logs ∈ logs.map pairKey := by
  cases logs with
  | nil => exact absurd rfl hne
  | cons r rs =>
    simp only [minKey]
    rcases foldl_min_mem rs (pairKey r) with he | hm
    · rw [he]; exact List.mem_cons_self _ _
    · exact List.mem_cons_of_mem _ hm

/-- `minKey` is a lower bound of all member keys. -/
theorem minKey_le (logs : List RawLog) (s : RawLog) (hs : s ∈ logs) :
    pairLe (minKey logs) (pairKey s) := by
  cases logs with
  | nil => cases hs
  | cons r rs =>
    simp only [minKey]
    rcases List.mem_cons.mp hs with rfl | hs2
    · exact foldl_min_le_seed rs (pairKey s)
    · exact foldl_min_le_mem rs (pairKey r) s hs2

/-- `minKey` only depends on the multiset of member keys. -/
theorem minKey_perm (b1 b2 : List RawLog) (hp : List.Perm b1 b2) :
    minKey b1 = minKey b2 := by
  cases b1 with
  | nil =>
    have : b2 = [] := (List.Perm.nil_eq hp).symm
    rw [this]
  | cons r rs =>
    have hne1 : (r :: rs) ≠ [] := by simp
    have hne2 : b2 ≠ [] := by
      intro he
      rw [he] at hp
      exact absurd hp.eq_nil (by simp)
    obtain ⟨s1, hs1, he1⟩ :
        ∃ s1, s1 ∈ b2 ∧ pairKey s1 = minKey (r :: rs) := by
      have := minKey_mem (r :: rs) hne1
      obtain ⟨s1, hs1, he1⟩ := List.mem_map.mp this
      exact ⟨s1, hp.mem_iff.mp hs1, he1⟩
    obtain ⟨s2, hs2, he2⟩ :
        ∃ s2, s2 ∈ (r :: rs) ∧ pairKey s2 = minKey b2 := by
      have := minKey_mem b2 hne2
      obtain ⟨s2, hs2, he2⟩ := List.mem_map.mp this
      exact ⟨s2, hp.mem_iff.mpr hs2, he2⟩
    have h1 : pairLe (minKey (r :: rs)) (minKey b2) := by
      rw [← he2]
      exact minKey_le (r :: rs) s2 hs2
    have h2 : pairLe (minKey b2) (minKey (r :: rs)) := by
      rw [← he1]
      exact minKey_le b2 s1 hs1
    exact pairLe_antisymm h1 h2

/-- Two sorted permutations of each other with pairwise-distinct sort keys
are equal. -/
theorem sorted_perm_nodupkeys_eq {α κ : Type} (key : α → κ)
    (kle : κ → κ → Prop) (hanti : ∀ x y, kle x y → kle y x → x = y) :
    ∀ (l1 l2 : List α), List.Perm l1 l2 →
      l1.Pairwise (fun a b => kle (key a) (key b)) →
      l2.Pairwise (fun a b => kle (key a) (key b)) →
      (l1.map key).Nodup → l1 = l2 := by
  intro l1
  induction l1 with
  | nil =>
    intro l2 hp _ _ _
    exact List.Perm.nil_eq hp
  | cons a t1 ih =>
    intro l2 hp hs1 hs2 hnd
    cases l2 with
    | nil => exact absurd hp.eq_nil (by simp)
    | cons b t2 =>
      have hab : a = b := by
        have hamem : a ∈ b :: t2 := hp.subset (List.mem_cons_self a t1)
        have hbmem : b ∈ a :: t1 := hp.symm.subset (List.mem_cons_self b t2)
        rcases List.mem_cons.mp hamem with he | ha2
        · exact he
        rcases List.mem_cons.mp hbmem with he | hb2
        · exact he.symm
        have hk1 : kle (key a) (key b) :=
          (List.pairwise_cons.mp hs1).1 b hb2
        have hk2 : kle (key b) (key a) :=
          (List.pairwise_cons.mp hs2).1 a ha2
        have hkey : key a = key b := hanti _ _ hk1 hk2
        exfalso
        have : key b ∈ t1.map key := List.mem_map_of_mem key hb2
        rw [← hkey] at this
        exact (List.nodup_cons.mp (by simpa using hnd)).1 this
      subst hab
      have hp2 : List.Perm t1 t2 := List.Perm.cons_inv hp
      have he : t1 = t2 := ih t2 hp2 (List.pairwise_cons.mp hs1).2
        (List.pairwise_cons.mp hs2).2 (List.nodup_cons.mp (by simpa using hnd)).2
      rw [he]

/-- The replay-relevant content of the sorted transaction entries: each
transaction's bucket in its within-transaction sorted order. -/
def sortedUnits (logs : List RawLog) : List (List RawLog) :=
  (sortedTxEntries logs).map (fun g => List.insertionSort logLe g.2)

/-- Reconstruction is the fold of unit replay over `sortedUnits`. -/
theorem reconstruct_via_units (a : Address) (logs : List RawLog) :
    reconstructStateFromEvents a logs =
      (sortedUnits logs).foldl
        (fun acc es =>
          let step := applyLogs (es.any isCanonicalSignal) es acc.1
          (step.1, acc.2 ++ step.2))
        (Token.create a, []) := by
  unfold reconstructStateFromEvents sortedUnits
  rw [List.foldl_map]
  rfl

/-- Every group of `groupByTx` carries the bucket of its hash. -/
theorem snd_eq_txBucket (l : List RawLog) (g : String × List RawLog)
    (hg : g ∈ groupByTx l) : g.2 = txBucket l g.1 := by
  conv at hg => rw [groupByTx_char l]
  obtain ⟨k, hk, he⟩ := List.mem_map.mp hg
  rw [← he]

/-- Buckets of permuted inputs are permutations. -/
theorem txBucket_perm (l1 l2 : List RawLog) (hp : List.Perm l1 l2)
    (h : String) : List.Perm (txBucket l1 h) (txBucket l2 h) :=
  hp.filter _

/-- Under globally distinct `(blockNumber, transactionIndex, logIndex)`
coordinates, the sorted bucket of each transaction is the same for any
permutation of the input. -/
theorem innerSort_txBucket_eq (l1 l2 : List RawLog) (hp : List.Perm l1 l2)
    (htk : (l1.map tripleKey).Nodup) (h : String) :
    List.insertionSort logLe (txBucket l1 h) =
      List.insertionSort logLe (txBucket l2 h) := by
  have hnd1 : ((txBucket l1 h).map tripleKey).Nodup :=
    List.Nodup.sublist ((List.filter_sublist l1).map tripleKey) htk
  apply sorted_perm_nodupkeys_eq tripleKey tripleLe
    (fun x y hx hy => tripleLe_antisymm hx hy)
  · exact (List.perm_insertionSort logLe (txBucket l1 h)).trans
      ((txBucket_perm l1 l2 hp h).trans
        (List.perm_insertionSort logLe (txBucket l2 h)).symm)
  · exact List.sorted_insertionSort logLe (txBucket l1 h)
  · exact List.sorted_insertionSort logLe (txBucket l2 h)
  · exact (((List.perm_insertionSort logLe (txBucket l1 h)).map
      tripleKey).nodup_iff).mpr hnd1

/-- The first-seen hash lists of permuted inputs are permutations. -/
theorem hashes_perm (l1 l2 : List RawLog) (hp : List.Perm l1 l2) :
    List.Perm ((groupByTx l1).map Prod.fst) ((groupByTx l2).map Prod.fst) := by
  apply (List.perm_ext_iff_of_nodup (nodup_fst_groupByTx l1)
    (nodup_fst_groupByTx l2)).mpr
  intro h
  rw [mem_fst_groupByTx, mem_fst_groupByTx]
  constructor
  · rintro ⟨r, hr, hh⟩
    exact ⟨r, hp.mem_iff.mp hr, hh⟩
  · rintro ⟨r, hr, hh⟩
    exact ⟨r, hp.mem_iff.mpr hr, hh⟩

/-- The effective order of a transaction is permutation-invariant. -/
theorem hmin_eq (l1 l2 : List RawLog) (hp : List.Perm l1 l2) (h : String) :
    minKey (txBucket l1 h) = minKey (txBucket l2 h) :=
  minKey_perm _ _ (txBucket_perm l1 l2 hp h)

/-- Claim C4, amended.  Feeding the engine two permutations of the same
record set yields identical results (final state and diagnostics),
provided the sort keys are unambiguous: distinct causal units
(transactions) have distinct effective `(blockNumber, transactionIndex)`
minima, and the events carry globally distinct
`(blockNumber, transactionIndex, logIndex)` coordinates. -/
theorem c4_order_independence_of_distinct_keys (a : Address)
    (l1 l2 : List RawLog) (hp : List.Perm l1 l2)
    (hmk : ((groupByTx l1).map (fun g => minKey g.2)).Nodup)
    (htk : (l1.map tripleKey).Nodup) :
    reconstructStateFromEvents a l1 = reconstructStateFromEvents a l2 := by
  rw [reconstruct_via_units, reconstruct_via_units]
  suffices hu : sortedUnits l1 = sortedUnits l2 by rw [hu]
  have hM : (sortedTxEntries l1).map
      (fun g => (g.1, List.insertionSort logLe g.2)) =
      (sortedTxEntries l2).map
        (fun g => (g.1, List.insertionSort logLe g.2)) := by
    apply sorted_perm_nodupkeys_eq
      (fun g : String × List RawLog => minKey (txBucket l1 g.1)) pairLe
      (fun x y hx hy => pairLe_antisymm hx hy)
    · refine ((List.perm_insertionSort groupLe (groupByTx l1)).map _).trans
        (List.Perm.trans ?_ ((List.perm_insertionSort groupLe
          (groupByTx l2)).map _).symm)
      have e1 : (groupByTx l1).map
          (fun g : String × List RawLog =>
            (g.1, List.insertionSort logLe g.2)) =
          ((groupByTx l1).map Prod.fst).map
            (fun k => (k, List.insertionSort logLe (txBucket l1 k))) := by
        conv_lhs => rw [groupByTx_char l1]
        rw [List.map_map]
        rfl
      have e2 : (groupByTx l2).map
          (fun g : String × List RawLog =>
            (g.1, List.insertionSort logLe g.2)) =
          ((groupByTx l2).map Prod.fst).map
            (fun k => (k, List.insertionSort logLe (txBucket l2 k))) := by
        conv_lhs => rw [groupByTx_char l2]
        rw [List.map_map]
        rfl
      have e3 : ((groupByTx l1).map Prod.fst).map
          (fun k => (k, List.insertionSort logLe (txBucket l1 k))) =
          ((groupByTx l1).map Prod.fst).map
            (fun k => (k, List.insertionSort logLe (txBucket l2 k))) := by
        apply List.map_congr_left
        intro k hk
        rw [innerSort_txBucket_eq l1 l2 hp htk k]
      rw [e1, e2, e3]
      exact (hashes_perm l1 l2 hp).map _
    · rw [List.pairwise_map]
      have hsorted : List.Pairwise groupLe (sortedTxEntries l1) :=
        List.sorted_insertionSort groupLe (groupByTx l1)
      refine List.Pairwise.imp_of_mem ?_ hsorted
      intro g1 g2 h1 h2 hle
      have hm1 : g1 ∈ groupByTx l1 :=
        (List.perm_insertionSort groupLe (groupByTx l1)).mem_iff.mp h1
      have hm2 : g2 ∈ groupByTx l1 :=
        (List.perm_insertionSort groupLe (groupByTx l1)).mem_iff.mp h2
      show pairLe (minKey (txBucket l1 g1.1)) (minKey (txBucket l1 g2.1))
      rw [← snd_eq_txBucket l1 g1 hm1, ← snd_eq_txBucket l1 g2 hm2]
      exact hle
    · rw [List.pairwise_map]
      have hsorted : List.Pairwise groupLe (sortedTxEntries l2) :=
        List.sorted_insertionSort groupLe (groupByTx l2)
      refine List.Pairwise.imp_of_mem ?_ hsorted
      intro g1 g2 h1 h2 hle
      have hm1 : g1 ∈ groupByTx l2 :=
        (List.perm_insertionSort groupLe (groupByTx l2)).mem_iff.mp h1
      have hm2 : g2 ∈ groupByTx l2 :=
        (List.perm_insertionSort groupLe (groupByTx l2)).mem_iff.mp h2
      show pairLe (minKey (txBucket l1 g1.1)) (minKey (txBucket l1 g2.1))
      rw [hmin_eq l1 l2 hp g1.1, hmin_eq l1 l2 hp g2.1]
      rw [← snd_eq_txBucket l2 g1 hm1, ← snd_eq_txBucket l2 g2 hm2]
      exact hle
    · rw [List.map_map]
      have hperm : List.Perm
          ((sortedTxEntries l1).map
            (fun g : String × List RawLog => minKey (txBucket l1 g.1)))
          ((groupByTx l1).map
            (fun g : String × List RawLog => minKey (txBucket l1 g.1))) :=
        (List.perm_insertionSort groupLe (groupByTx l1)).map _
      refine (hperm.nodup_iff).mpr ?_
      have he : (groupByTx l1).map
          (fun g : String × List RawLog => minKey (txBucket l1 g.1)) =
          (groupByTx l1).map (fun g => minKey g.2) := by
        apply List.map_congr_left
        intro g hg
        rw [← snd_eq_txBucket l1 g hg]
      rw [he]
      exact hmk
  have h1 : sortedUnits l1 = ((sortedTxEntries l1).map
      (fun g => (g.1, List.insertionSort logLe g.2))).map Prod.snd := by
    rw [List.map_map]
    rfl
  have h2 : sortedUnits l2 = ((sortedTxEntries l2).map
      (fun g => (g.1, List.insertionSort logLe g.2))).map Prod.snd := by
    rw [List.map_map]
    rfl
  rw [h1, h2, hM]

/-- Claim C4, counterexample.  Two records in two different transactions
sharing the minimum coordinate `(1, 0)`: a mint funding alice and a
transfer spending those funds.  The two delivery orders are permutations
of each other, yet reconstruction differs: delivered mint-first, the
transfer succeeds (alice 0, bob 100, no diagnostics); delivered
transfer-first, the tie is broken by arrival order, the transfer fails
and is skipped, and the final state is alice 100, bob 0 with a
diagnostic. -/
theorem c4_perm_dependence_counterexample :
    List.Perm
      [(⟨some (.Mint alice.value 100), "0xtxb", 1, 0, 0⟩ : RawLog),
       ⟨some (.Transfer alice.value bob.value 100), "0xtxa", 1, 0, 0⟩]
      [⟨some (.Transfer alice.value bob.value 100), "0xtxa", 1, 0, 0⟩,
       ⟨some (.Mint alice.value 100), "0xtxb", 1, 0, 0⟩] ∧
    reconstructStateFromEvents contractAddr
      [⟨some (.Mint alice.value 100), "0xtxb", 1, 0, 0⟩,
       ⟨some (.Transfer alice.value bob.value 100), "0xtxa", 1, 0, 0⟩] ≠
    reconstructStateFromEvents contractAddr
      [⟨some (.Transfer alice.value bob.value 100), "0xtxa", 1, 0, 0⟩,
       ⟨some (.Mint alice.value 100), "0xtxb", 1, 0, 0⟩] := by
  refine ⟨List.Perm.swap _ _ _, ?_⟩
  intro he
  have hb := congrArg (fun p => Token.getBalance p.1 bob) he
  simp only at hb
  exact absurd hb (by decide)

/-- Witness for `c4_order_independence_of_distinct_keys`: the same two
units with distinct coordinates (blocks 1 and 2) reconstruct identically
in either delivery order. -/
theorem c4_order_independence_witness :
    reconstructStateFromEvents contractAddr
      [⟨some (.Mint alice.value 100), "0xtxb", 1, 0, 0⟩,
       ⟨some (.Transfer alice.value bob.value 100), "0xtxa", 2, 0, 0⟩] =
    reconstructStateFromEvents contractAddr
      [⟨some (.Transfer alice.value bob.value 100), "0xtxa", 2, 0, 0⟩,
       ⟨some (.Mint alice.value 100), "0xtxb", 1, 0, 0⟩] :=
  c4_order_independence_of_distinct_keys contractAddr
    [⟨some (.Mint alice.value 100), "0xtxb", 1, 0, 0⟩,
     ⟨some (.Transfer alice.value bob.value 100), "0xtxa", 2, 0, 0⟩]
    [⟨some (.Transfer alice.value bob.value 100), "0xtxa", 2, 0, 0⟩,
     ⟨some (.Mint alice.value 100), "0xtxb", 1, 0, 0⟩]
    (List.Perm.swap _ _ _) (by decide) (by decide)

end EthState
